import Mathlib

/-!
Verification development for the `crates.io-preamble` C include analyzer.

The repository consists of `src/c_analyzer/import_extractor.rs` (a
tree-sitter based declaration extractor together with a recursive,
cycle-safe dependency walker over local `#include`s) and `src/lib.rs`
(the top-level entry point that registers the default include-search
directories plus the root file's parent directory).

This file shallowly embeds that code:
* a tree-sitter syntax tree is a `Node` (kind, source text, children with
  optional field labels), the external parser's output;
* the extractor functions (`extract_imports`, `extract_functions`,
  `extract_types`, `extract_macros` and their helpers) are translated
  directly from the Rust, including the exact cursor/stack behavior of
  `traverse_tree` (which pushes the cursor after `goto_first_child`, so
  it can re-visit trailing siblings and skip later ones);
* the filesystem is a finite association list from path strings to
  entries (unreadable / unparsable / parsed syntax tree), so that
  `Path::exists`, `fs::read_to_string` and the parser call become total
  functions;
* the recursive walk `analyze_file_recursive` / `analyze_c_file` becomes
  a fuel-indexed pair of mutually recursive functions, with `none`
  marking fuel exhaustion; a separate lemma shows the fuel bound used by
  the top-level wrapper is always sufficient, so exhaustion never occurs.
-/

namespace CPreamble

/-- A tree-sitter syntax node: its `kind`, the source text it spans
(modelling `utf8_text` against the analyzer's source buffer), and its
children in order, each optionally carrying a field label (modelling
tree-sitter fields, as used by `child_by_field_name`). -/
inductive Node : Type where
  | mk (kind : String) (text : String) (children : List (Option String × Node))

/-- The node's kind string. -/
def Node.kind : Node → String
  | .mk k _ _ => k

/-- The node's source text (`utf8_text` in the Rust code). -/
def Node.text : Node → String
  | .mk _ t _ => t

/-- All children in order, labels dropped (`Node::children` in tree-sitter). -/
def Node.children : Node → List Node
  | .mk _ _ cs => cs.map Prod.snd

/-- Models tree-sitter's `child_by_field_name`: the first child carrying
the given field label. -/
def Node.childByFieldName (n : Node) (f : String) : Option Node :=
  match n with
  | .mk _ _ cs => ((cs.find? fun c => c.1 = some f).map Prod.snd)

mutual
/-- Potential of a node, `1 + 2 * (sum over children)`: a measure that
bounds the number of steps `traverse_tree`'s cursor loop can take inside
the node's subtree, re-visits included (the factor 2 accounts for the
cursor pushed onto the stack after each descent). -/
def Node.potential : Node → Nat
  | .mk _ _ cs => 1 + 2 * potentialList cs

/-- Sum of the potentials of a labelled child list. -/
def potentialList : List (Option String × Node) → Nat
  | [] => 0
  | c :: cs => c.2.potential + potentialList cs
end

/-- Sum of the potentials of a node list. -/
def potentialOf : List Node → Nat
  | [] => 0
  | n :: ns => n.potential + potentialOf ns

/-- Potential of `traverse_tree`'s explicit stack. Each entry is a
pushed cursor, recorded as the node it points at together with the list
of its right siblings (all a `TreeCursor` position contributes to the
walk). -/
def stackPotential : List (Node × List Node) → Nat
  | [] => 0
  | e :: rest => e.1.potential + potentialOf e.2 + stackPotential rest

/-- Bound on the fuel `visitSeq` needs from a given machine state. -/
def visitBound (n : Node) (sibs : List Node)
    (st : List (Node × List Node)) : Nat :=
  2 * (n.potential + potentialOf sibs + stackPotential st)

/-- Bound on the fuel `climbSeq` needs from a given machine state. -/
def climbBound (sibs : List Node) (st : List (Node × List Node)) : Nat :=
  2 * (potentialOf sibs + stackPotential st) + 1

mutual
/-- The visiting order of the Rust `traverse_tree` loop
(import_extractor.rs:254-274), modelled exactly. A cursor position is
(current node, its right siblings); crucially the Rust code pushes the
cursor *after* `goto_first_child()` has moved it, so the stack holds
first-child cursors, not parents: popping resumes at a first child, whose
`goto_next_sibling` re-enters the second sibling (trailing siblings get
re-visited) and the parent's own later siblings are lost (they can be
skipped entirely). `fuel` is structural so the function computes;
`machine_stable` below shows the bound used by `traverseVisits` never
truncates the walk. Step: apply `f` to the node; if it has children,
descend to the first child and push that cursor; otherwise climb. -/
def visitSeq : Nat → Node → List Node → List (Node × List Node) → List Node
  | 0, _, _, _ => []
  | fuel + 1, n, sibs, stack =>
      n :: (match n.children with
        | c :: cs => visitSeq fuel c cs ((c, cs) :: stack)
        | [] => climbSeq fuel sibs stack)

/-- The `while !cursor.goto_next_sibling() { ... pop ... }` part of
`traverse_tree`: move to the next sibling if there is one; otherwise pop
a saved cursor and retry from it; return when the stack empties. -/
def climbSeq : Nat → List Node → List (Node × List Node) → List Node
  | 0, _, _ => []
  | fuel + 1, sibs, stack =>
      match sibs, stack with
      | q :: qs, _ => visitSeq fuel q qs stack
      | [], [] => []
      | [], (_, esibs) :: rest => climbSeq fuel esibs rest
end

/-- The full node sequence `traverse_tree` applies its callback to,
starting at the root with an empty stack, run with provably sufficient
fuel (`traverseVisits_stable`). A node can occur several times (trailing
siblings are re-visited) and some nodes may be missing (subtrees after
the second sibling of a parent can be skipped) — this is the real,
defective cursor walk of the source, not a pre-order. -/
def traverseVisits (t : Node) : List Node :=
  visitSeq (2 * t.potential + 1) t [] []

/-- An extracted `#include`: the textual path (delimiters stripped) and
whether it used angle brackets (`is_system`). Mirrors `struct Import`. -/
structure Import where
  path : String
  is_system : Bool
deriving DecidableEq, Repr

/-- An extracted function signature. Mirrors `struct Function`:
`parameters` is the ordered list of `(type_text, name_text)` pairs. -/
structure Function where
  name : String
  return_type : String
  parameters : List (String × String)
deriving DecidableEq, Repr

/-- An extracted type definition. Mirrors `struct TypeDef`. -/
structure TypeDef where
  name : String
  definition : String
deriving DecidableEq, Repr

/-- An extracted macro definition. Mirrors `struct Macro`. -/
structure MacroDef where
  name : String
  definition : String
  parameters : Option String
deriving DecidableEq, Repr

/-- Models Rust's `str::trim_start_matches` for a single pattern char:
removes every leading occurrence. -/
def trimStartMatches (s : String) (c : Char) : String :=
  ⟨s.data.dropWhile (· == c)⟩

/-- Models Rust's `str::trim_end_matches` for a single pattern char. -/
def trimEndMatches (s : String) (c : Char) : String :=
  ⟨(s.data.reverse.dropWhile (· == c)).reverse⟩

/-- The delimiter stripping done in `extract_imports`: in the Rust order,
`trim_start_matches('<')`, `trim_start_matches('"')`,
`trim_end_matches('>')`, `trim_end_matches('"')`. -/
def stripDelims (s : String) : String :=
  trimEndMatches (trimEndMatches (trimStartMatches (trimStartMatches s '<') '"') '>') '"'

/-- Translation of `extract_imports`: each visit `traverse_tree` makes
to a `preproc_include` node with a `path` field appends one `Import`;
`is_system` is set when the path node's kind is `system_lib_string`
(angle brackets). Directives the cursor walk never visits yield nothing,
and re-visited directives append twice. -/
def extractImports (root : Node) : List Import :=
  (traverseVisits root).filterMap fun n =>
    if n.kind = "preproc_include" then
      (n.childByFieldName "path").map fun p =>
        { path := stripDelims p.text, is_system := p.kind = "system_lib_string" }
    else none

mutual
/-- Spec-side listing of every node of a tree exactly once (a plain
pre-order). This is NOT the code's `traverse_tree` visiting order (see
`visitSeq`); it is used only to state which constructs are present in a
tree when comparing the spec's wording against what the code extracts. -/
def Node.allNodes : Node → List Node
  | .mk k t cs => .mk k t cs :: allNodesList cs

/-- Spec-side listing of every node of a labelled forest, once each. -/
def allNodesList : List (Option String × Node) → List Node
  | [] => []
  | c :: cs => c.2.allNodes ++ allNodesList cs
end

/-- Modelled from the spec: "every preprocessor-include directive yields
one `Import`" (§4.2) — the include directives actually present in a
syntax tree, one per `preproc_include` node, independent of the code's
traversal. Used only to compare the spec's directive-level notion of
reachability with what `extractImports` reports. -/
def directiveImports (root : Node) : List Import :=
  root.allNodes.filterMap fun n =>
    if n.kind = "preproc_include" then
      (n.childByFieldName "path").map fun p =>
        { path := stripDelims p.text, is_system := p.kind = "system_lib_string" }
    else none

/-- Translation of `get_function_name`: the text of the declarator's own
`declarator` field, if present. -/
def getFunctionName (declarator : Node) : Option String :=
  (declarator.childByFieldName "declarator").map Node.text

/-- Translation of `get_return_type`: text of the node's `type` field,
defaulting to the empty string. -/
def getReturnType (functionNode : Node) : String :=
  ((functionNode.childByFieldName "type").map Node.text).getD ""

/-- Translation of `get_parameters`: iterate the children of the
declarator's `parameters` field, and for each `parameter_declaration`
record `(type text, declarator text)`, both defaulting to `""`. -/
def getParameters (declarator : Node) : List (String × String) :=
  match declarator.childByFieldName "parameters" with
  | none => []
  | some paramList =>
      paramList.children.filterMap fun param =>
        if param.kind = "parameter_declaration" then
          some (((param.childByFieldName "type").map Node.text).getD "",
                ((param.childByFieldName "declarator").map Node.text).getD "")
        else none

/-- Translation of `extract_functions`: each visit `traverse_tree` makes
to a `function_definition` or `declaration` node whose declarator has a
determinable name appends one `Function`; nameless constructs are
silently skipped. -/
def extractFunctions (root : Node) : List Function :=
  (traverseVisits root).filterMap fun n =>
    if n.kind = "function_definition" || n.kind = "declaration" then
      (n.childByFieldName "declarator").bind fun d =>
        (getFunctionName d).map fun nm =>
          { name := nm, return_type := getReturnType n, parameters := getParameters d }
    else none

/-- Translation of `extract_types`: `type_definition` nodes with a `name`
field (definition text from the `type` field), and named
`struct_specifier` / `enum_specifier` nodes (definition text is the whole
node's text). Applied at each node `traverse_tree` visits. -/
def extractTypes (root : Node) : List TypeDef :=
  (traverseVisits root).filterMap fun n =>
    if n.kind = "type_definition" then
      (n.childByFieldName "name").map fun nm =>
        { name := nm.text
          definition := ((n.childByFieldName "type").map Node.text).getD "" }
    else if n.kind = "struct_specifier" || n.kind = "enum_specifier" then
      (n.childByFieldName "name").map fun nm =>
        { name := nm.text, definition := n.text }
    else none

/-- Translation of `extract_macros`: `preproc_def` and
`preproc_function_def` nodes with a `name` field yield one record, with
the parameter list (if any) and the `value` field's text captured
verbatim. Applied at each node `traverse_tree` visits. -/
def extractMacroDefs (root : Node) : List MacroDef :=
  (traverseVisits root).filterMap fun n =>
    if n.kind = "preproc_def" || n.kind = "preproc_function_def" then
      (n.childByFieldName "name").map fun nm =>
        { name := nm.text
          parameters := (n.childByFieldName "parameters").map Node.text
          definition := ((n.childByFieldName "value").map Node.text).getD "" }
    else none

/-- Mirrors `struct ParsedFile`: the per-file record produced by
`parse_content`. -/
structure ParsedFile where
  path : String
  imports : List Import
  functions : List Function
  types : List TypeDef
  macros : List MacroDef
deriving DecidableEq, Repr

/-- Mirrors `struct HeaderSummary`. -/
structure HeaderSummary where
  path : String
  description : String
  functions : List Function
  types : List TypeDef
  macros : List MacroDef
deriving DecidableEq, Repr

/-- Mirrors `enum AnalyzerError`; the payloads are reduced to strings
(`std::io::Error` is modelled by the offending path). -/
inductive AnalyzerError : Type where
  | IoError (msg : String)
  | ParseError (msg : String)
  | AnalysisError (msg : String)
deriving DecidableEq, Repr

/-- One filesystem entry, fixing the outcome of reading and structurally
parsing the file at a path: `unreadable` models `fs::read_to_string`
failing, `unparsable` models the tree-sitter parser returning no tree,
and `source` carries the syntax tree the external parser produces. -/
inductive FsEntry : Type where
  | unreadable
  | unparsable (contents : String)
  | source (tree : Node)

/-- The filesystem: a finite association list from path strings to
entries. A path exists on disk iff it has an entry. -/
abbrev FS : Type := List (String × FsEntry)

/-- Entry stored at path `p`, if any. -/
def fsLookup (fs : FS) (p : String) : Option FsEntry :=
  ((List.find? (fun e => e.1 = p) fs).map Prod.snd)

/-- Models `Path::exists` for candidate include paths. -/
def fsExists (fs : FS) (p : String) : Bool :=
  (fsLookup fs p).isSome

/-- Translation of `resolve_import`: walk the registered include
directories in order and return the first `directory + "/" + import.path`
that exists on disk (`PathBuf::push` is modelled as `"/"`-joining).
The `currentFile` argument is present in the Rust signature but unused by
its body. -/
def resolveImport (fs : FS) (includePaths : List String)
    (currentFile : String) (imp : Import) : Option String :=
  match includePaths with
  | [] => none
  | dir :: rest =>
      if fsExists fs (dir ++ "/" ++ imp.path) then some (dir ++ "/" ++ imp.path)
      else resolveImport fs rest currentFile imp

/-- Translation of the read-and-parse phase of `parse_file` +
`parse_content`: an absent or unreadable file is an `IoError` (the `?` on
`fs::read_to_string`), a file the structural parser rejects is a
`ParseError` with the Rust code's message, and otherwise the four
extractors run over the tree. -/
def readAndParse (fs : FS) (p : String) : Except AnalyzerError ParsedFile :=
  match fsLookup fs p with
  | none => .error (.IoError p)
  | some .unreadable => .error (.IoError p)
  | some (.unparsable _) => .error (.ParseError "Failed to parse file")
  | some (.source t) =>
      .ok { path := p, imports := extractImports t, functions := extractFunctions t
            types := extractTypes t, macros := extractMacroDefs t }

/-- Does reading and parsing `p` succeed? -/
def parsesOk (fs : FS) (p : String) : Bool :=
  match readAndParse fs p with
  | .ok _ => true
  | .error _ => false

/-- The edge list `update_import_graph` computes for a parsed file:
every import (system or not) is offered to `resolve_import`, and the
resolved paths are collected (`filter_map`). -/
def importGraphEdges (fs : FS) (incs : List String) (p : String)
    (pf : ParsedFile) : List String :=
  pf.imports.filterMap (resolveImport fs incs p)

/-- The import-graph entry `parse_file` records for path `p`: parse the
file, then run `update_import_graph` over its imports. `none` when the
file cannot be read or parsed (in which case `parse_file` errors before
touching the graph). -/
def importGraphEntry (fs : FS) (incs : List String) (p : String) :
    Option (List String) :=
  (readAndParse fs p).toOption.map (importGraphEdges fs incs p)

/-- Translation of `generate_description`. -/
def generateDescription (pf : ParsedFile) : String :=
  "Header file containing " ++ Nat.repr pf.functions.length ++ " functions, "
    ++ Nat.repr pf.types.length ++ " types, and "
    ++ Nat.repr pf.macros.length ++ " macros"

/-- The `HeaderSummary` built for a parsed file in
`analyze_file_recursive`. -/
def summaryOf (pf : ParsedFile) : HeaderSummary :=
  { path := pf.path, description := generateDescription pf
    functions := pf.functions, types := pf.types, macros := pf.macros }

/-- The resolved local dependencies collected into `imports_to_analyze`:
the imports with `is_system = false` that `resolve_import` can place. -/
def localDeps (fs : FS) (incs : List String) (p : String)
    (pf : ParsedFile) : List String :=
  (pf.imports.filter fun i => !i.is_system).filterMap (resolveImport fs incs p)

/-- Walker state: the `analyzed_headers` visited set and the accumulated
`summaries` list of `analyze_c_file`. -/
abbrev WState : Type := Finset String × List HeaderSummary

/-- The `for import_path in imports_to_analyze` loop of
`analyze_file_recursive`: analyze each dependency in order with `step`,
threading the state, with errors (and fuel exhaustion) propagating. -/
def runDeps (step : String → WState → Option (Except AnalyzerError WState)) :
    List String → WState → Option (Except AnalyzerError WState)
  | [], st => some (.ok st)
  | d :: ds, st =>
      match step d st with
      | none => none
      | some (.error e) => some (.error e)
      | some (.ok st') => runDeps step ds st'

/-- Translation of `analyze_file_recursive`, indexed by fuel (`none`
means the fuel ran out; `analyzeFuelSufficient` below shows the bound
used by `analyzeCFile` makes this impossible). If the file is already in
the visited set, return at once; otherwise read and parse it (errors
propagate), mark it visited, recurse depth-first into each resolved
non-system import, and finally append the file's own summary. -/
def analyzeFileRec (fs : FS) (incs : List String) :
    Nat → String → WState → Option (Except AnalyzerError WState)
  | 0, _, _ => none
  | fuel + 1, p, (V, S) =>
      if p ∈ V then some (.ok (V, S))
      else
        match readAndParse fs p with
        | .error e => some (.error e)
        | .ok pf =>
            match runDeps (fun d st => analyzeFileRec fs incs fuel d st)
                (localDeps fs incs p pf) (insert p V, S) with
            | none => none
            | some (.error e) => some (.error e)
            | some (.ok (V', S')) => some (.ok (V', S' ++ [summaryOf pf]))

/-- Fuel-explicit form of `analyze_c_file`: run the recursive walk from an
empty visited set and empty summary list, and keep only the summaries. -/
def analyzeCFileFuel (fs : FS) (incs : List String) (fuel : Nat)
    (root : String) : Option (Except AnalyzerError (List HeaderSummary)) :=
  (analyzeFileRec fs incs fuel root (∅, [])).map (Except.map Prod.snd)

/-- Translation of `analyze_c_file`: the Rust function is genuinely
recursive; here the recursion is run with fuel `fs.length + 1`, which
`analyzeFuelSufficient` proves is always enough, so the `none` fallback
branch is dead. -/
def analyzeCFile (fs : FS) (incs : List String) (root : String) :
    Except AnalyzerError (List HeaderSummary) :=
  match analyzeCFileFuel fs incs (fs.length + 1) root with
  | none => .error (.AnalysisError "fuel exhausted")
  | some r => r

/-- The paths of a summary list, in order. -/
def pathsOf (S : List HeaderSummary) : List String :=
  S.map HeaderSummary.path

/-- The resolved local successors of a file: the dependency list the
walker would traverse from `p` (empty when `p` does not read and parse). -/
def succs (fs : FS) (incs : List String) (p : String) : List String :=
  match readAndParse fs p with
  | .ok pf => localDeps fs incs p pf
  | .error _ => []

/-- One traversal edge of the walker: `b` is a resolved non-system
dependency of `a`. -/
def Edge (fs : FS) (incs : List String) (a b : String) : Prop :=
  b ∈ succs fs incs a

/-- Reachability along resolved local (non-system) includes; reflexive. -/
def Reaches (fs : FS) (incs : List String) : String → String → Prop :=
  Relation.ReflTransGen (Edge fs incs)

/-- The traversed dependency graph has no cycle: no edge closes back to
its own source through further edges. -/
def Acyclic (fs : FS) (incs : List String) : Prop :=
  ∀ a b, Edge fs incs a b → Reaches fs incs b a → False

/-- Post-order predicate on a summary list: each summary's resolved local
dependencies all occur among the paths already emitted before it (`seen`
accumulates those paths). `PostOrdered fs incs [] S` says every file's
summary in `S` is appended only after the summaries of all of its
resolved local dependencies. -/
def PostOrdered (fs : FS) (incs : List String) :
    List String → List HeaderSummary → Prop
  | _, [] => True
  | seen, s :: rest =>
      (∀ d ∈ succs fs incs s.path, d ∈ seen) ∧
        PostOrdered fs incs (seen ++ [s.path]) rest

/-- The invariant carried by the post-order argument: `P` is the set of
in-progress files (visited, but whose summary is not yet emitted); the
visited set is exactly the summarized paths together with `P`, no
summarized path is in progress, and the emitted list is post-ordered. -/
def PostInv (fs : FS) (incs : List String) (P : Finset String)
    (V : Finset String) (S : List HeaderSummary) : Prop :=
  (∀ q, q ∈ V ↔ q ∈ pathsOf S ∨ q ∈ P) ∧
  (∀ q ∈ pathsOf S, q ∉ P) ∧
  PostOrdered fs incs [] S

/-- The keys of the modelled filesystem. -/
def fsKeys (fs : FS) : Finset String :=
  (fs.map Prod.fst).toFinset

/-- What one successful `analyzeFileRec` call on file `p` guarantees,
relating the input state `(V, S)` to the output state `(V', S')`: the
visited set only grows and ends up containing `p`; the summary list grows
by a duplicate-free block whose paths are exactly the newly visited
files; every newly visited file read and parsed successfully, has all its
resolved local successors visited, and is reachable from `p`. -/
def RecConc (fs : FS) (incs : List String) (p : String)
    (V : Finset String) (S : List HeaderSummary)
    (V' : Finset String) (S' : List HeaderSummary) : Prop :=
  V ⊆ V' ∧ p ∈ V' ∧
  (∃ Δ, S' = S ++ Δ ∧ (pathsOf Δ).Nodup ∧
    ∀ q, q ∈ pathsOf Δ ↔ q ∈ V' ∧ q ∉ V) ∧
  (∀ q, q ∈ V' → q ∉ V → parsesOk fs q = true) ∧
  (∀ q, q ∈ V' → q ∉ V → ∀ d ∈ succs fs incs q, d ∈ V') ∧
  (∀ q, q ∈ V' → q ∉ V → Reaches fs incs p q)

/-- The analogue of `RecConc` for the dependency loop over a list `ds` of
resolved imports: additionally every listed dependency ends up visited,
and each newly visited file is reachable from some listed dependency. -/
def DepsConc (fs : FS) (incs : List String) (ds : List String)
    (V : Finset String) (S : List HeaderSummary)
    (V' : Finset String) (S' : List HeaderSummary) : Prop :=
  V ⊆ V' ∧ (∀ d ∈ ds, d ∈ V') ∧
  (∃ Δ, S' = S ++ Δ ∧ (pathsOf Δ).Nodup ∧
    ∀ q, q ∈ pathsOf Δ ↔ q ∈ V' ∧ q ∉ V) ∧
  (∀ q, q ∈ V' → q ∉ V → parsesOk fs q = true) ∧
  (∀ q, q ∈ V' → q ∉ V → ∀ d ∈ succs fs incs q, d ∈ V') ∧
  (∀ q, q ∈ V' → q ∉ V → ∃ d ∈ ds, Reaches fs incs d q)

/-- The hardcoded default include-search directories registered by
`extract_import_summaries` in `src/lib.rs`, in registration order. -/
def defaultIncludePaths : List String :=
  ["/Library/Developer/CommandLineTools/usr/lib/clang/15.0.0/include",
   "/Library/Developer/CommandLineTools/SDKs/MacOSX.sdk/usr/include",
   "/Library/Developer/CommandLineTools/usr/include",
   "/usr/include",
   "/usr/local/include"]

/-- Splits a character list at `'/'` separators (helper for
`pathParent`). -/
def splitSlash : List Char → List (List Char)
  | [] => [[]]
  | c :: cs =>
      match splitSlash cs with
      | [] => [[]]
      | h :: t => if c = '/' then [] :: h :: t else (c :: h) :: t

/-- Models Rust's `std::path::Path::parent` for Unix-style paths: `none`
for the root `"/"` and the empty path, otherwise the path with its last
component removed (so `"a/b.c"` gives `"a"` and `"b.c"` gives `""`). -/
def pathParent (s : String) : Option String :=
  if s = "" || s = "/" then none
  else
    let comps := ((splitSlash s.data).map fun l => (⟨l⟩ : String)).filter
      fun c => c ≠ ""
    let tailStr := String.intercalate "/" comps.dropLast
    some (if s.data.head? = some '/' then "/" ++ tailStr else tailStr)

/-- The ordered include-search directory list `extract_import_summaries`
registers: the five hardcoded defaults, then — only when the root path
has a parent — that parent directory. -/
def searchDirs (filePath : String) : List String :=
  defaultIncludePaths ++
    (match pathParent filePath with
     | some d => [d]
     | none => [])

/-- Translation of `extract_import_summaries` in `src/lib.rs`, with the
filesystem passed explicitly: build the search-directory list and run
`analyze_c_file` on the root path. -/
def extractImportSummaries (fs : FS) (filePath : String) :
    Except AnalyzerError (List HeaderSummary) :=
  analyzeCFile fs (searchDirs filePath) filePath

/-- A translation-unit node with the given children (fixture builder). -/
def transUnit (cs : List (Option String × Node)) : Node :=
  .mk "translation_unit" "" cs

/-- A `#include <p>` directive node, as tree-sitter parses it (fixture
builder): the `path` field has kind `system_lib_string`. -/
def sysInclude (p : String) : Option String × Node :=
  (none, .mk "preproc_include" ("#include <" ++ p ++ ">")
    [(some "path", .mk "system_lib_string" ("<" ++ p ++ ">") [])])

/-- A `#include "p"` directive node (fixture builder): the `path` field
has kind `string_literal`. -/
def localInclude (p : String) : Option String × Node :=
  (none, .mk "preproc_include" ("#include \x22" ++ p ++ "\x22")
    [(some "path", .mk "string_literal" ("\x22" ++ p ++ "\x22") [])])

end CPreamble

namespace CPreamble

instance {ε α : Type} [DecidableEq ε] [DecidableEq α] : DecidableEq (Except ε α) :=
  fun x y =>
    match x, y with
    | .ok a, .ok b => decidable_of_iff (a = b) (by simp)
    | .ok _, .error _ => isFalse fun h => Except.noConfusion h
    | .error _, .ok _ => isFalse fun h => Except.noConfusion h
    | .error e, .error f => decidable_of_iff (e = f) (by simp)

/-- Acyclic fixture: `r` locally includes `a` (resolving to `d/a`) and
has an unresolvable system include; `d/a` locally includes `b`; `d/b` is
a leaf. -/
def fsAcyc : FS :=
  [("r", .source (transUnit [localInclude "a", sysInclude "z.h"])),
   ("d/a", .source (transUnit [localInclude "b"])),
   ("d/b", .source (transUnit []))]

/-- Cyclic fixture: `d/a` and `d/b` locally include each other. -/
def fsCyc : FS :=
  [("d/a", .source (transUnit [localInclude "b"])),
   ("d/b", .source (transUnit [localInclude "a"]))]

/-- Fixture for the import graph: `main.c` contains only the system
include `<stdio.h>`, and a file named `stdio.h` exists inside the
registered search directory `inc`. -/
def fsSysResolvable : FS :=
  [("main.c", .source (transUnit [sysInclude "stdio.h"])),
   ("inc/stdio.h", .source (transUnit []))]

/-- Fixture for error propagation: the root `r` parses fine and locally
includes `a`, which resolves to `d/a`, but `d/a` cannot be read. -/
def fsBadDep : FS :=
  [("r", .source (transUnit [localInclude "a"])),
   ("d/a", .unreadable)]

/-- Fixture for system-import traversal: the root `r` has only the
system include `<stdio.h>`, while a same-named file exists in the
registered search directory `d`. -/
def fsSysFile : FS :=
  [("r", .source (transUnit [sysInclude "stdio.h"])),
   ("d/stdio.h", .source (transUnit []))]

/-- Fixture for the resolver: `a.h` exists in both `d1` and `d2`. -/
def fsTwoDirs : FS :=
  [("d1/a.h", .source (transUnit [])),
   ("d2/a.h", .source (transUnit []))]

/-- The root tree of the three-includes fixture: three local include
directives `"a"`, `"b"`, `"c"` in a row. -/
def threeTree : Node :=
  transUnit [localInclude "a", localInclude "b", localInclude "c"]

/-- Three-includes fixture: the root holds three local include
directives and all three target files exist and parse. -/
def fsThree : FS :=
  [("r", .source threeTree),
   ("d/a", .source (transUnit [])),
   ("d/b", .source (transUnit [])),
   ("d/c", .source (transUnit []))]

/-- The syntax tree tree-sitter produces for `void say_hello(void);`
(matching the repository's own `test_extract_functions` test): the
parameter list contains one `parameter_declaration` whose type is `void`
and which has no declarator. -/
def voidParamTree : Node :=
  .mk "translation_unit" "void say_hello(void);" [
    (none, .mk "declaration" "void say_hello(void);" [
      (some "type", .mk "primitive_type" "void" []),
      (some "declarator", .mk "function_declarator" "say_hello(void)" [
        (some "declarator", .mk "identifier" "say_hello" []),
        (some "parameters", .mk "parameter_list" "(void)" [
          (none, .mk "(" "(" []),
          (none, .mk "parameter_declaration" "void" [
            (some "type", .mk "primitive_type" "void" [])]),
          (none, .mk ")" ")" [])])]),
      (none, .mk ";" ";" [])])]

/-- The syntax tree tree-sitter produces for the parameterless
declaration `void f();`: the parameter list holds no
`parameter_declaration` at all. -/
def emptyParamTree : Node :=
  .mk "translation_unit" "void f();" [
    (none, .mk "declaration" "void f();" [
      (some "type", .mk "primitive_type" "void" []),
      (some "declarator", .mk "function_declarator" "f()" [
        (some "declarator", .mk "identifier" "f" []),
        (some "parameters", .mk "parameter_list" "()" [
          (none, .mk "(" "(" []),
          (none, .mk ")" ")" [])])]),
      (none, .mk ";" ";" [])])]

/-- The summaries the analyzer returns on the acyclic fixture. -/
def acycSumms : List HeaderSummary :=
  ((analyzeCFile fsAcyc ["d"] "r").toOption).getD []

/-- The summaries the analyzer returns on the cyclic fixture. -/
def cycSumms : List HeaderSummary :=
  ((analyzeCFile fsCyc ["d"] "d/a").toOption).getD []

/-- The summaries the analyzer returns on the system-include fixture. -/
def sysSumms : List HeaderSummary :=
  ((analyzeCFile fsSysFile ["d"] "r").toOption).getD []

/-- The summaries the analyzer returns on the three-includes fixture. -/
def threeSumms : List HeaderSummary :=
  ((analyzeCFile fsThree ["d"] "r").toOption).getD []

section Lemmas

lemma one_le_potential (n : Node) : 1 ≤ n.potential := by
  cases n with
  | mk k t cs => exact Nat.le_add_right 1 (2 * potentialList cs)

lemma potentialList_eq (csl : List (Option String × Node)) :
    potentialList csl = potentialOf (csl.map Prod.snd) := by
  induction csl with
  | nil => rfl
  | cons c cs ih =>
      simp only [potentialList, List.map_cons, potentialOf, ih]

lemma potential_children_cons {n c : Node} {cs : List Node}
    (h : n.children = c :: cs) :
    n.potential = 1 + 2 * (c.potential + potentialOf cs) := by
  cases n with
  | mk k t csl =>
      have h1 : Node.potential (.mk k t csl) = 1 + 2 * potentialList csl := rfl
      rw [h1, potentialList_eq csl]
      have h2 : (Node.mk k t csl).children = csl.map Prod.snd := rfl
      rw [h2] at h
      rw [h]
      rfl

lemma machine_stable : ∀ fuel : Nat,
    (∀ (fuel' : Nat) (n : Node) (sibs : List Node)
        (st : List (Node × List Node)),
      visitBound n sibs st < fuel → visitBound n sibs st < fuel' →
      visitSeq fuel n sibs st = visitSeq fuel' n sibs st) ∧
    (∀ (fuel' : Nat) (sibs : List Node) (st : List (Node × List Node)),
      climbBound sibs st < fuel → climbBound sibs st < fuel' →
      climbSeq fuel sibs st = climbSeq fuel' sibs st) := by
  intro fuel
  induction fuel with
  | zero =>
      constructor
      · intro fuel' n sibs st h _
        exact absurd h (Nat.not_lt_zero _)
      · intro fuel' sibs st h _
        exact absurd h (Nat.not_lt_zero _)
  | succ f ih =>
      constructor
      · intro fuel' n sibs st h h'
        obtain ⟨f', rfl⟩ : ∃ f', fuel' = f' + 1 := by
          cases fuel' with
          | zero => exact absurd h' (Nat.not_lt_zero _)
          | succ f' => exact ⟨f', rfl⟩
        simp only [visitSeq]
        congr 1
        have hb0 : visitBound n sibs st =
            2 * (n.potential + potentialOf sibs + stackPotential st) := rfl
        have hp1 : 1 ≤ n.potential := one_le_potential n
        cases hc : n.children with
        | cons c cs =>
            have hpot := potential_children_cons hc
            have hb1 : visitBound c cs ((c, cs) :: st) =
                2 * (c.potential + potentialOf cs +
                  (c.potential + potentialOf cs + stackPotential st)) := rfl
            exact ih.1 f' c cs ((c, cs) :: st) (by omega) (by omega)
        | nil =>
            have hb1 : climbBound sibs st =
                2 * (potentialOf sibs + stackPotential st) + 1 := rfl
            exact ih.2 f' sibs st (by omega) (by omega)
      · intro fuel' sibs st h h'
        obtain ⟨f', rfl⟩ : ∃ f', fuel' = f' + 1 := by
          cases fuel' with
          | zero => exact absurd h' (Nat.not_lt_zero _)
          | succ f' => exact ⟨f', rfl⟩
        simp only [climbSeq]
        have hb0 : climbBound sibs st =
            2 * (potentialOf sibs + stackPotential st) + 1 := rfl
        cases sibs with
        | cons q qs =>
            have hb1 : visitBound q qs st =
                2 * (q.potential + potentialOf qs + stackPotential st) := rfl
            have hb2 : potentialOf (q :: qs) = q.potential + potentialOf qs := rfl
            exact ih.1 f' q qs st (by omega) (by omega)
        | nil =>
            cases st with
            | nil => rfl
            | cons e rest =>
                obtain ⟨en, esibs⟩ := e
                have hb1 : climbBound esibs rest =
                    2 * (potentialOf esibs + stackPotential rest) + 1 := rfl
                have hb2 : stackPotential ((en, esibs) :: rest) =
                    en.potential + potentialOf esibs + stackPotential rest := rfl
                have hp1 : 1 ≤ en.potential := one_le_potential en
                have hb3 : potentialOf ([] : List Node) = 0 := rfl
                exact ih.2 f' esibs rest (by omega) (by omega)

/-- The fuel `traverseVisits` uses is sufficient: any larger fuel gives
the same visit sequence, so the modelled walk is the machine's true
(unbounded) run, never a truncation. -/
lemma traverseVisits_stable (t : Node) {fuel : Nat}
    (h : 2 * t.potential < fuel) :
    visitSeq fuel t [] [] = traverseVisits t := by
  have hb : visitBound t [] [] = 2 * t.potential := by
    have h1 : potentialOf ([] : List Node) = 0 := rfl
    have h2 : stackPotential [] = 0 := rfl
    simp [visitBound, h1, h2]
  exact (machine_stable fuel).1 (2 * t.potential + 1) t [] []
    (by omega) (by omega)

variable (fs : FS) (incs : List String)

lemma resolveImport_ignores_current (cf cf' : String) (imp : Import) :
    ∀ dirs : List String,
      resolveImport fs dirs cf imp = resolveImport fs dirs cf' imp := by
  intro dirs
  induction dirs with
  | nil => rfl
  | cons dir rest ih => simp only [resolveImport, ih]

lemma resolveImport_exists {dirs : List String} {cf : String} {imp : Import}
    {q : String} (h : resolveImport fs dirs cf imp = some q) :
    fsExists fs q = true := by
  induction dirs with
  | nil => simp [resolveImport] at h
  | cons dir rest ih =>
      rw [resolveImport] at h
      split at h
      · cases h; assumption
      · exact ih h

lemma readAndParse_ok_path {p : String} {pf : ParsedFile}
    (h : readAndParse fs p = .ok pf) : pf.path = p := by
  unfold readAndParse at h
  cases hl : fsLookup fs p with
  | none =>
      rw [hl] at h
      exact absurd h (by simp)
  | some e =>
      rw [hl] at h
      cases e with
      | unreadable => exact absurd h (by simp)
      | unparsable c => exact absurd h (by simp)
      | source t =>
          cases h
          rfl

lemma readAndParse_ok_key {p : String} {pf : ParsedFile}
    (h : readAndParse fs p = .ok pf) : p ∈ fsKeys fs := by
  rw [readAndParse] at h
  split at h <;> try simp_all
  next e heq =>
    have hfind : (List.find? (fun e => e.1 = p) fs).isSome := by
      unfold fsLookup at heq
      cases hf : List.find? (fun e => e.1 = p) fs <;> simp [hf] at heq ⊢
    rcases Option.isSome_iff_exists.mp hfind with ⟨pr, hpr⟩
    have hmem := List.mem_of_find?_eq_some hpr
    have hp : pr.1 = p := by
      have := List.find?_some hpr
      simpa using this
    refine List.mem_toFinset.mpr ?_
    exact hp ▸ List.mem_map_of_mem Prod.fst hmem

lemma succs_of_ok {p : String} {pf : ParsedFile}
    (h : readAndParse fs p = .ok pf) :
    succs fs incs p = localDeps fs incs p pf := by
  rw [succs, h]

lemma parsesOk_of_ok {p : String} {pf : ParsedFile}
    (h : readAndParse fs p = .ok pf) : parsesOk fs p = true := by
  rw [parsesOk, h]

lemma pathsOf_append (A B : List HeaderSummary) :
    pathsOf (A ++ B) = pathsOf A ++ pathsOf B := by
  simp [pathsOf]

lemma runDeps_master
    (step : String → WState → Option (Except AnalyzerError WState))
    (hstep : ∀ d V S V' S', step d (V, S) = some (.ok (V', S')) →
      RecConc fs incs d V S V' S') :
    ∀ ds V S V' S', runDeps step ds (V, S) = some (.ok (V', S')) →
      DepsConc fs incs ds V S V' S' := by
  intro ds
  induction ds with
  | nil =>
      intro V S V' S' h
      simp only [runDeps, Option.some.injEq, Except.ok.injEq, Prod.mk.injEq] at h
      obtain ⟨rfl, rfl⟩ := h
      refine ⟨Finset.Subset.refl V, by simp, ⟨[], by simp, by simp [pathsOf], ?_⟩,
        ?_, ?_, ?_⟩
      · intro q
        simp only [pathsOf, List.map_nil, List.not_mem_nil, false_iff]
        rintro ⟨h1, h2⟩
        exact h2 h1
      · intro q hq hnq; exact absurd hq hnq
      · intro q hq hnq; exact absurd hq hnq
      · intro q hq hnq; exact absurd hq hnq
  | cons d ds ih =>
      intro V S V' S' h
      simp only [runDeps] at h
      cases hstep_eq : step d (V, S) with
      | none => rw [hstep_eq] at h; cases h
      | some r =>
          rw [hstep_eq] at h
          cases r with
          | error e => simp at h
          | ok st1 =>
              obtain ⟨Va, Sa⟩ := st1
              have hrc := hstep d V S Va Sa hstep_eq
              have hdc := ih Va Sa V' S' h
              obtain ⟨hV1, hmemd, ⟨Δa, hSa, hndA, hiffA⟩, hokA, hclA, hreA⟩ := hrc
              obtain ⟨hV2, hmemds, ⟨Δb, hSb, hndB, hiffB⟩, hokB, hclB, hreB⟩ := hdc
              subst hSa
              subst hSb
              refine ⟨hV1.trans hV2, ?_, ⟨Δa ++ Δb, by rw [List.append_assoc], ?_, ?_⟩,
                ?_, ?_, ?_⟩
              · intro d' hd'
                rcases List.mem_cons.mp hd' with rfl | hmem
                · exact hV2 hmemd
                · exact hmemds d' hmem
              · rw [pathsOf_append, List.nodup_append]
                refine ⟨hndA, hndB, ?_⟩
                intro q hqA hqB
                exact ((hiffB q).mp hqB).2 ((hiffA q).mp hqA).1
              · intro q
                rw [pathsOf_append, List.mem_append, hiffA q, hiffB q]
                constructor
                · rintro (⟨hqVa, hqV⟩ | ⟨hqV', hqVa⟩)
                  · exact ⟨hV2 hqVa, hqV⟩
                  · exact ⟨hqV', fun hq => hqVa (hV1 hq)⟩
                · rintro ⟨hqV', hqV⟩
                  by_cases hqa : q ∈ Va
                  · exact Or.inl ⟨hqa, hqV⟩
                  · exact Or.inr ⟨hqV', hqa⟩
              · intro q hqV' hqV
                by_cases hqa : q ∈ Va
                · exact hokA q hqa hqV
                · exact hokB q hqV' hqa
              · intro q hqV' hqV dd hdd
                by_cases hqa : q ∈ Va
                · exact hV2 (hclA q hqa hqV dd hdd)
                · exact hclB q hqV' hqa dd hdd
              · intro q hqV' hqV
                by_cases hqa : q ∈ Va
                · exact ⟨d, List.mem_cons_self d ds, hreA q hqa hqV⟩
                · obtain ⟨d', hd', hre⟩ := hreB q hqV' hqa
                  exact ⟨d', List.mem_cons_of_mem d hd', hre⟩

lemma rec_master :
    ∀ fuel p V S V' S',
      analyzeFileRec fs incs fuel p (V, S) = some (.ok (V', S')) →
      RecConc fs incs p V S V' S' := by
  intro fuel
  induction fuel with
  | zero => intro p V S V' S' h; simp [analyzeFileRec] at h
  | succ fuel ih =>
      intro p V S V' S' h
      simp only [analyzeFileRec] at h
      by_cases hp : p ∈ V
      · rw [if_pos hp] at h
        obtain ⟨rfl, rfl⟩ : V = V' ∧ S = S' := by
          simpa [Prod.ext_iff] using h
        refine ⟨Finset.Subset.refl V, hp, ⟨[], by simp, by simp [pathsOf], ?_⟩,
          ?_, ?_, ?_⟩
        · intro q
          simp only [pathsOf, List.map_nil, List.not_mem_nil, false_iff]
          rintro ⟨h1, h2⟩
          exact h2 h1
        · intro q hq hnq; exact absurd hq hnq
        · intro q hq hnq; exact absurd hq hnq
        · intro q hq hnq; exact absurd hq hnq
      · rw [if_neg hp] at h
        cases hr : readAndParse fs p with
        | error e => rw [hr] at h; simp at h
        | ok pf =>
            rw [hr] at h
            dsimp only at h
            cases hd : runDeps (fun d st => analyzeFileRec fs incs fuel d st)
                (localDeps fs incs p pf) (insert p V, S) with
            | none => rw [hd] at h; cases h
            | some r =>
                rw [hd] at h
                cases r with
                | error e => simp at h
                | ok st1 =>
                    obtain ⟨V1, S1⟩ := st1
                    obtain ⟨rfl, rfl⟩ : V1 = V' ∧ S1 ++ [summaryOf pf] = S' := by
                      simpa using h
                    have hdc := runDeps_master fs incs _
                      (fun d Va Sa Vb Sb hh => ih d Va Sa Vb Sb hh)
                      (localDeps fs incs p pf) (insert p V) S V1 S1 hd
                    obtain ⟨hV1, hds, ⟨Δ1, hS1, hnd1, hiff1⟩, hok1, hcl1, hre1⟩ := hdc
                    have hppath : pf.path = p := readAndParse_ok_path fs hr
                    have hpV1 : p ∈ V1 := hV1 (Finset.mem_insert_self p V)
                    have hsuccs : succs fs incs p = localDeps fs incs p pf :=
                      succs_of_ok fs incs hr
                    have hps : pathsOf [summaryOf pf] = [p] := by
                      simp [pathsOf, summaryOf, hppath]
                    subst hS1
                    refine ⟨(Finset.subset_insert p V).trans hV1, hpV1,
                      ⟨Δ1 ++ [summaryOf pf], by rw [List.append_assoc], ?_, ?_⟩,
                      ?_, ?_, ?_⟩
                    · rw [pathsOf_append, hps, List.nodup_append]
                      refine ⟨hnd1, List.nodup_singleton p, ?_⟩
                      intro q hq hq'
                      rcases List.mem_singleton.mp hq' with rfl
                      exact ((hiff1 q).mp hq).2 (Finset.mem_insert_self q V)
                    · intro q
                      rw [pathsOf_append, hps, List.mem_append, hiff1 q,
                        List.mem_singleton]
                      constructor
                      · rintro (⟨hqV1, hqiV⟩ | rfl)
                        · exact ⟨hqV1, fun hq => hqiV (Finset.mem_insert_of_mem hq)⟩
                        · exact ⟨hpV1, hp⟩
                      · rintro ⟨hqV1, hqV⟩
                        by_cases hqp : q = p
                        · exact Or.inr hqp
                        · exact Or.inl ⟨hqV1,
                            fun hmem => (Finset.mem_insert.mp hmem).elim hqp hqV⟩
                    · intro q hqV1 hqV
                      by_cases hqp : q = p
                      · subst hqp; exact parsesOk_of_ok fs hr
                      · exact hok1 q hqV1
                          (fun hmem => (Finset.mem_insert.mp hmem).elim hqp hqV)
                    · intro q hqV1 hqV d hd'
                      by_cases hqp : q = p
                      · subst hqp
                        rw [hsuccs] at hd'
                        exact hds d hd'
                      · exact hcl1 q hqV1
                          (fun hmem => (Finset.mem_insert.mp hmem).elim hqp hqV) d hd'
                    · intro q hqV1 hqV
                      by_cases hqp : q = p
                      · subst hqp; exact Relation.ReflTransGen.refl
                      · obtain ⟨d, hd', hre⟩ := hre1 q hqV1
                          (fun hmem => (Finset.mem_insert.mp hmem).elim hqp hqV)
                        have hedge : Edge fs incs p d := by
                          rw [Edge, hsuccs]; exact hd'
                        exact Relation.ReflTransGen.head hedge hre

lemma runDeps_fuel
    (step : String → WState → Option (Except AnalyzerError WState)) (fuel : Nat)
    (hsome : ∀ d V S, ((fsKeys fs) \ V).card < fuel → step d (V, S) ≠ none)
    (hmono : ∀ d V S V' S', step d (V, S) = some (.ok (V', S')) → V ⊆ V') :
    ∀ ds V S, ((fsKeys fs) \ V).card < fuel → runDeps step ds (V, S) ≠ none := by
  intro ds
  induction ds with
  | nil => intro V S hcard; simp [runDeps]
  | cons d ds ih =>
      intro V S hcard
      simp only [runDeps]
      cases hstep_eq : step d (V, S) with
      | none => exact absurd hstep_eq (hsome d V S hcard)
      | some r =>
          cases r with
          | error e => simp
          | ok st1 =>
              obtain ⟨Va, Sa⟩ := st1
              have hsub := hmono d V S Va Sa hstep_eq
              have hcard' : ((fsKeys fs) \ Va).card < fuel :=
                lt_of_le_of_lt
                  (Finset.card_le_card
                    (Finset.sdiff_subset_sdiff (Finset.Subset.refl _) hsub))
                  hcard
              exact ih Va Sa hcard'

lemma rec_fuel :
    ∀ fuel p V S, ((fsKeys fs) \ V).card < fuel →
      analyzeFileRec fs incs fuel p (V, S) ≠ none := by
  intro fuel
  induction fuel with
  | zero => intro p V S hcard; exact absurd hcard (Nat.not_lt_zero _)
  | succ fuel ih =>
      intro p V S hcard
      simp only [analyzeFileRec]
      by_cases hp : p ∈ V
      · rw [if_pos hp]; simp
      · rw [if_neg hp]
        cases hr : readAndParse fs p with
        | error e => simp
        | ok pf =>
            dsimp only
            have hpkeys : p ∈ fsKeys fs := readAndParse_ok_key fs hr
            have hpdiff : p ∈ (fsKeys fs) \ V := Finset.mem_sdiff.mpr ⟨hpkeys, hp⟩
            have hcard' : ((fsKeys fs) \ insert p V).card < fuel := by
              have heq : (fsKeys fs) \ insert p V = ((fsKeys fs) \ V).erase p := by
                ext x
                simp only [Finset.mem_sdiff, Finset.mem_erase, Finset.mem_insert]
                tauto
              have hpos : 0 < ((fsKeys fs) \ V).card :=
                Finset.card_pos.mpr ⟨p, hpdiff⟩
              rw [heq, Finset.card_erase_of_mem hpdiff]
              omega
            have hdnone := runDeps_fuel fs
              (fun d st => analyzeFileRec fs incs fuel d st) fuel
              (fun d Va Sa hc => ih d Va Sa hc)
              (fun d Va Sa Vb Sb hh => (rec_master fs incs fuel d Va Sa Vb Sb hh).1)
              (localDeps fs incs p pf) (insert p V) S hcard'
            cases hd : runDeps (fun d st => analyzeFileRec fs incs fuel d st)
                (localDeps fs incs p pf) (insert p V, S) with
            | none => exact absurd hd hdnone
            | some r => cases r with
                | error e => simp
                | ok st1 => obtain ⟨V1, S1⟩ := st1; simp

lemma analyzeCFileFuel_ne_none (root : String) :
    analyzeCFileFuel fs incs (fs.length + 1) root ≠ none := by
  have h1 : (fsKeys fs).card ≤ fs.length := by
    simpa [fsKeys] using List.toFinset_card_le (fs.map Prod.fst)
  have hcard : ((fsKeys fs) \ ∅).card < fs.length + 1 := by
    rw [Finset.sdiff_empty]
    omega
  intro hnone
  unfold analyzeCFileFuel at hnone
  rw [Option.map_eq_none'] at hnone
  exact rec_fuel fs incs (fs.length + 1) root ∅ [] hcard hnone

lemma analyzeCFile_ok_elim {root : String} {summs : List HeaderSummary}
    (h : analyzeCFile fs incs root = .ok summs) :
    ∃ V', analyzeFileRec fs incs (fs.length + 1) root (∅, []) =
      some (.ok (V', summs)) := by
  unfold analyzeCFile at h
  cases hrec : analyzeFileRec fs incs (fs.length + 1) root (∅, []) with
  | none =>
      exfalso
      apply analyzeCFileFuel_ne_none fs incs root
      unfold analyzeCFileFuel
      rw [hrec]
      rfl
  | some res =>
      have hw : analyzeCFileFuel fs incs (fs.length + 1) root =
          some (Except.map Prod.snd res) := by
        unfold analyzeCFileFuel
        rw [hrec]
        rfl
      rw [hw] at h
      cases res with
      | error e => simp [Except.map] at h
      | ok st =>
          obtain ⟨V', S'⟩ := st
          have : S' = summs := by simpa [Except.map] using h
          subst this
          exact ⟨V', rfl⟩

lemma reach_subset_visited {root : String} {V' : Finset String}
    {S' : List HeaderSummary}
    (h : analyzeFileRec fs incs (fs.length + 1) root (∅, []) =
      some (.ok (V', S'))) :
    ∀ q, Reaches fs incs root q → q ∈ V' := by
  obtain ⟨-, hroot, -, -, hcl, -⟩ :=
    rec_master fs incs (fs.length + 1) root ∅ [] V' S' h
  intro q hq
  have hq' : Relation.ReflTransGen (Edge fs incs) root q := hq
  clear hq
  induction hq' with
  | refl => exact hroot
  | tail _ hedge ih => exact hcl _ ih (Finset.not_mem_empty _) _ hedge

lemma analyzeCFile_paths {root : String} {summs : List HeaderSummary}
    (h : analyzeCFile fs incs root = .ok summs) :
    (pathsOf summs).Nodup ∧
      ∀ q, q ∈ pathsOf summs ↔ Reaches fs incs root q := by
  obtain ⟨V', hw⟩ := analyzeCFile_ok_elim fs incs h
  obtain ⟨-, hroot, ⟨Δ, hS, hnd, hiff⟩, -, -, hre⟩ :=
    rec_master fs incs (fs.length + 1) root ∅ [] V' summs hw
  rw [List.nil_append] at hS
  subst hS
  refine ⟨hnd, ?_⟩
  intro q
  rw [hiff q]
  constructor
  · rintro ⟨hqV, -⟩
    exact hre q hqV (Finset.not_mem_empty _)
  · intro hq
    exact ⟨reach_subset_visited fs incs hw q hq, Finset.not_mem_empty q⟩

lemma analyzeCFile_ok_parses {root : String} {summs : List HeaderSummary}
    (h : analyzeCFile fs incs root = .ok summs) :
    ∀ q, Reaches fs incs root q → parsesOk fs q = true := by
  obtain ⟨V', hw⟩ := analyzeCFile_ok_elim fs incs h
  obtain ⟨-, -, -, hok, -, -⟩ :=
    rec_master fs incs (fs.length + 1) root ∅ [] V' summs hw
  intro q hq
  exact hok q (reach_subset_visited fs incs hw q hq) (Finset.not_mem_empty _)

lemma postOrdered_append :
    ∀ (A B : List HeaderSummary) (seen : List String),
      PostOrdered fs incs seen (A ++ B) ↔
        PostOrdered fs incs seen A ∧
          PostOrdered fs incs (seen ++ pathsOf A) B := by
  intro A
  induction A with
  | nil => intro B seen; simp [PostOrdered, pathsOf]
  | cons a A ih =>
      intro B seen
      simp only [List.cons_append, PostOrdered, pathsOf, List.map_cons,
        List.append_eq]
      rw [ih B (seen ++ [a.path])]
      constructor
      · rintro ⟨h1, h2, h3⟩
        refine ⟨⟨h1, h2⟩, ?_⟩
        simpa [List.append_assoc, pathsOf] using h3
      · rintro ⟨⟨h1, h2⟩, h3⟩
        refine ⟨h1, h2, ?_⟩
        simpa [List.append_assoc, pathsOf] using h3

lemma runDeps_post
    (step : String → WState → Option (Except AnalyzerError WState))
    (hstepP : ∀ d V S V' S' P, step d (V, S) = some (.ok (V', S')) →
      PostInv fs incs P V S → (∀ v ∈ P, Reaches fs incs v d) →
      Acyclic fs incs → PostInv fs incs P V' S') :
    ∀ ds V S V' S' P, runDeps step ds (V, S) = some (.ok (V', S')) →
      PostInv fs incs P V S →
      (∀ v ∈ P, ∀ d ∈ ds, Reaches fs incs v d) →
      Acyclic fs incs → PostInv fs incs P V' S' := by
  intro ds
  induction ds with
  | nil =>
      intro V S V' S' P h hinv hanc hac
      simp only [runDeps, Option.some.injEq, Except.ok.injEq, Prod.mk.injEq] at h
      obtain ⟨rfl, rfl⟩ := h
      exact hinv
  | cons d ds ih =>
      intro V S V' S' P h hinv hanc hac
      simp only [runDeps] at h
      cases hstep_eq : step d (V, S) with
      | none => rw [hstep_eq] at h; cases h
      | some r =>
          rw [hstep_eq] at h
          cases r with
          | error e => simp at h
          | ok st1 =>
              obtain ⟨Va, Sa⟩ := st1
              have hinv1 := hstepP d V S Va Sa P hstep_eq hinv
                (fun v hv => hanc v hv d (List.mem_cons_self d ds)) hac
              exact ih Va Sa V' S' P h hinv1
                (fun v hv dd hdd => hanc v hv dd (List.mem_cons_of_mem d hdd)) hac

lemma rec_post :
    ∀ fuel p V S V' S' P,
      analyzeFileRec fs incs fuel p (V, S) = some (.ok (V', S')) →
      PostInv fs incs P V S →
      (∀ v ∈ P, Reaches fs incs v p) →
      Acyclic fs incs →
      PostInv fs incs P V' S' := by
  intro fuel
  induction fuel with
  | zero => intro p V S V' S' P h _ _ _; simp [analyzeFileRec] at h
  | succ fuel ih =>
      intro p V S V' S' P h hinv hanc hac
      simp only [analyzeFileRec] at h
      by_cases hp : p ∈ V
      · rw [if_pos hp] at h
        obtain ⟨rfl, rfl⟩ : V = V' ∧ S = S' := by simpa [Prod.ext_iff] using h
        exact hinv
      · rw [if_neg hp] at h
        cases hr : readAndParse fs p with
        | error e => rw [hr] at h; simp at h
        | ok pf =>
            rw [hr] at h
            dsimp only at h
            cases hd : runDeps (fun d st => analyzeFileRec fs incs fuel d st)
                (localDeps fs incs p pf) (insert p V, S) with
            | none => rw [hd] at h; cases h
            | some r =>
                rw [hd] at h
                cases r with
                | error e => simp at h
                | ok st1 =>
                    obtain ⟨V1, S1⟩ := st1
                    obtain ⟨rfl, rfl⟩ : V1 = V' ∧ S1 ++ [summaryOf pf] = S' := by
                      simpa [Prod.ext_iff] using h
                    obtain ⟨hVP, hdisj, hpost⟩ := hinv
                    have hppath : pf.path = p := readAndParse_ok_path fs hr
                    have hsuccs : succs fs incs p = localDeps fs incs p pf :=
                      succs_of_ok fs incs hr
                    have hpnotS : p ∉ pathsOf S := fun hmem =>
                      hp ((hVP p).mpr (Or.inl hmem))
                    have hpnotP : p ∉ P := fun hmem =>
                      hp ((hVP p).mpr (Or.inr hmem))
                    have hps : pathsOf [summaryOf pf] = [p] := by
                      simp [pathsOf, summaryOf, hppath]
                    have hinv1 : PostInv fs incs (insert p P) (insert p V) S := by
                      refine ⟨?_, ?_, hpost⟩
                      · intro q
                        rw [Finset.mem_insert, hVP q, Finset.mem_insert]
                        tauto
                      · intro q hq
                        rw [Finset.mem_insert]
                        rintro (rfl | hqP)
                        · exact hpnotS hq
                        · exact hdisj q hq hqP
                    have hanc1 : ∀ v ∈ insert p P, ∀ d ∈ localDeps fs incs p pf,
                        Reaches fs incs v d := by
                      intro v hv d hd'
                      have hedge : Edge fs incs p d := by
                        rw [Edge, hsuccs]; exact hd'
                      rcases Finset.mem_insert.mp hv with rfl | hvP
                      · exact Relation.ReflTransGen.single hedge
                      · exact Relation.ReflTransGen.tail (hanc v hvP) hedge
                    have hinv2 := runDeps_post fs incs
                      (fun d st => analyzeFileRec fs incs fuel d st)
                      (fun dd Va Sa Vb Sb Pq hh hinvq hancq hacq =>
                        ih dd Va Sa Vb Sb Pq hh hinvq hancq hacq)
                      (localDeps fs incs p pf) (insert p V) S V1 S1 (insert p P)
                      hd hinv1 hanc1 hac
                    obtain ⟨hVP1, hdisj1, hpost1⟩ := hinv2
                    have hdeps := runDeps_master fs incs
                      (fun d st => analyzeFileRec fs incs fuel d st)
                      (fun dd Va Sa Vb Sb hh =>
                        rec_master fs incs fuel dd Va Sa Vb Sb hh)
                      (localDeps fs incs p pf) (insert p V) S V1 S1 hd
                    have hdmem : ∀ d ∈ localDeps fs incs p pf, d ∈ pathsOf S1 := by
                      intro d hd'
                      have hdV1 : d ∈ V1 := hdeps.2.1 d hd'
                      have hedge : Edge fs incs p d := by
                        rw [Edge, hsuccs]; exact hd'
                      rcases (hVP1 d).mp hdV1 with hdS | hdP
                      · exact hdS
                      · exfalso
                        rcases Finset.mem_insert.mp hdP with rfl | hdP'
                        · exact hac _ _ hedge Relation.ReflTransGen.refl
                        · exact hac _ _ hedge (hanc d hdP')
                    refine ⟨?_, ?_, ?_⟩
                    · intro q
                      rw [hVP1 q, pathsOf_append, hps, List.mem_append,
                        List.mem_singleton, Finset.mem_insert]
                      tauto
                    · intro q hq
                      rw [pathsOf_append, hps, List.mem_append,
                        List.mem_singleton] at hq
                      rcases hq with hq | rfl
                      · exact fun hqP => hdisj1 q hq (Finset.mem_insert_of_mem hqP)
                      · exact hpnotP
                    · rw [postOrdered_append fs incs S1 [summaryOf pf] []]
                      refine ⟨hpost1, ?_⟩
                      simp only [PostOrdered, List.nil_append]
                      refine ⟨?_, trivial⟩
                      intro d hd'
                      have hsp : (summaryOf pf).path = p := by
                        simp [summaryOf, hppath]
                      rw [hsp, hsuccs] at hd'
                      exact hdmem d hd'

lemma analyzeCFile_postordered {root : String} {summs : List HeaderSummary}
    (hac : Acyclic fs incs) (h : analyzeCFile fs incs root = .ok summs) :
    PostOrdered fs incs [] summs := by
  obtain ⟨V', hw⟩ := analyzeCFile_ok_elim fs incs h
  have hinv0 : PostInv fs incs ∅ ∅ [] := by
    refine ⟨?_, ?_, trivial⟩
    · intro q; simp [pathsOf]
    · intro q hq; simp [pathsOf] at hq
  have hres := rec_post fs incs (fs.length + 1) root ∅ [] V' summs ∅ hw hinv0
    (fun v hv => absurd hv (Finset.not_mem_empty v)) hac
  exact hres.2.2

lemma resolveImport_some_iff (cf : String) (imp : Import) :
    ∀ (dirs : List String) (q : String),
      resolveImport fs dirs cf imp = some q ↔
        ∃ pre dir suf, dirs = pre ++ dir :: suf ∧
          q = dir ++ "/" ++ imp.path ∧ fsExists fs q = true ∧
          ∀ d ∈ pre, fsExists fs (d ++ "/" ++ imp.path) = false := by
  intro dirs
  induction dirs with
  | nil =>
      intro q
      constructor
      · intro h; simp [resolveImport] at h
      · rintro ⟨pre, dir, suf, hsplit, -⟩
        exact absurd hsplit.symm (by simp)
  | cons dir rest ih =>
      intro q
      simp only [resolveImport]
      by_cases hex : fsExists fs (dir ++ "/" ++ imp.path) = true
      · rw [if_pos hex]
        constructor
        · intro h
          obtain rfl : dir ++ "/" ++ imp.path = q := by simpa using h
          exact ⟨[], dir, rest, by simp, rfl, hex, by simp⟩
        · rintro ⟨pre, d0, suf, hsplit, hq, hexq, hpre⟩
          cases pre with
          | nil =>
              simp only [List.nil_append, List.cons.injEq] at hsplit
              obtain ⟨rfl, rfl⟩ := hsplit
              rw [hq]
          | cons p0 pre' =>
              simp only [List.cons_append, List.cons.injEq] at hsplit
              obtain ⟨rfl, -⟩ := hsplit
              exact absurd (hpre _ (List.mem_cons_self _ _)) (by rw [hex]; simp)
      · rw [if_neg hex]
        rw [ih q]
        have hexf : fsExists fs (dir ++ "/" ++ imp.path) = false := by
          simpa using hex
        constructor
        · rintro ⟨pre, d0, suf, hsplit, hq, hexq, hpre⟩
          refine ⟨dir :: pre, d0, suf, by rw [hsplit, List.cons_append], hq, hexq, ?_⟩
          intro d hd
          rcases List.mem_cons.mp hd with rfl | hmem
          · exact hexf
          · exact hpre d hmem
        · rintro ⟨pre, d0, suf, hsplit, hq, hexq, hpre⟩
          cases pre with
          | nil =>
              simp only [List.nil_append, List.cons.injEq] at hsplit
              obtain ⟨rfl, rfl⟩ := hsplit
              rw [hq] at hexq
              exact absurd hexq hex
          | cons p0 pre' =>
              simp only [List.cons_append, List.cons.injEq] at hsplit
              obtain ⟨rfl, hrest⟩ := hsplit
              exact ⟨pre', d0, suf, hrest, hq, hexq,
                fun d hd => hpre d (List.mem_cons_of_mem _ hd)⟩

lemma resolveImport_none_iff (cf : String) (imp : Import) :
    ∀ dirs : List String,
      resolveImport fs dirs cf imp = none ↔
        ∀ d ∈ dirs, fsExists fs (d ++ "/" ++ imp.path) = false := by
  intro dirs
  induction dirs with
  | nil => simp [resolveImport]
  | cons dir rest ih =>
      simp only [resolveImport]
      by_cases hex : fsExists fs (dir ++ "/" ++ imp.path) = true
      · rw [if_pos hex]
        simp only [List.forall_mem_cons, hex]
        simp
      · rw [if_neg hex]
        have hexf : fsExists fs (dir ++ "/" ++ imp.path) = false := by
          simpa using hex
        rw [ih]
        simp only [List.forall_mem_cons, hexf]
        simp

lemma edge_elim {a b : String} (h : Edge fs incs a b) :
    ∃ pf imp, readAndParse fs a = .ok pf ∧ imp ∈ pf.imports ∧
      imp.is_system = false ∧ resolveImport fs incs a imp = some b := by
  unfold Edge succs at h
  cases hr : readAndParse fs a with
  | error e => rw [hr] at h; exact absurd h (List.not_mem_nil b)
  | ok pf =>
      rw [hr] at h
      unfold localDeps at h
      obtain ⟨imp, himp, hres⟩ := List.mem_filterMap.mp h
      have hfil := List.mem_filter.mp himp
      refine ⟨pf, imp, rfl, hfil.1, ?_, hres⟩
      simpa using hfil.2

lemma importGraphEntry_elim {p : String} {es : List String}
    (h : importGraphEntry fs incs p = some es) :
    ∀ q ∈ es, fsExists fs q = true ∧
      ∃ pf imp, readAndParse fs p = .ok pf ∧ imp ∈ pf.imports ∧
        resolveImport fs incs p imp = some q := by
  unfold importGraphEntry at h
  cases hr : readAndParse fs p with
  | error e => rw [hr] at h; simp [Except.toOption] at h
  | ok pf =>
      rw [hr] at h
      simp only [Except.toOption, Option.map_some', Option.some.injEq] at h
      subst h
      intro q hq
      unfold importGraphEdges at hq
      obtain ⟨imp, himp, hres⟩ := List.mem_filterMap.mp hq
      exact ⟨resolveImport_exists fs hres, pf, imp, rfl, himp, hres⟩

lemma succs_nil_reaches {q x : String} (hnil : succs fs incs q = [])
    (h : Reaches fs incs q x) : x = q := by
  have h' : Relation.ReflTransGen (Edge fs incs) q x := h
  rcases Relation.ReflTransGen.cases_head h' with heq | ⟨c, hc, -⟩
  · exact heq.symm
  · unfold Edge at hc
    rw [hnil] at hc
    exact absurd hc (List.not_mem_nil c)

end Lemmas

lemma succs_fsAcyc_r : succs fsAcyc ["d"] "r" = ["d/a"] := by decide

lemma succs_fsAcyc_a : succs fsAcyc ["d"] "d/a" = ["d/b"] := by decide

lemma succs_fsAcyc_b : succs fsAcyc ["d"] "d/b" = [] := by decide

lemma succs_fsAcyc_other {p : String} (h1 : p ≠ "r") (h2 : p ≠ "d/a")
    (h3 : p ≠ "d/b") : succs fsAcyc ["d"] p = [] := by
  have hfind : List.find? (fun e => e.1 = p) fsAcyc = none := by
    rw [List.find?_eq_none]
    intro x hx
    simp only [fsAcyc, List.mem_cons, List.not_mem_nil, or_false] at hx
    rcases hx with rfl | rfl | rfl
    · simpa using fun he => h1 he.symm
    · simpa using fun he => h2 he.symm
    · simpa using fun he => h3 he.symm
  unfold succs readAndParse fsLookup
  rw [hfind]
  rfl

lemma edge_fsAcyc {a b : String} (h : Edge fsAcyc ["d"] a b) :
    (a = "r" ∧ b = "d/a") ∨ (a = "d/a" ∧ b = "d/b") := by
  unfold Edge at h
  by_cases h1 : a = "r"
  · subst h1
    rw [succs_fsAcyc_r] at h
    exact Or.inl ⟨rfl, by simpa using h⟩
  · by_cases h2 : a = "d/a"
    · subst h2
      rw [succs_fsAcyc_a] at h
      exact Or.inr ⟨rfl, by simpa using h⟩
    · by_cases h3 : a = "d/b"
      · subst h3
        rw [succs_fsAcyc_b] at h
        exact absurd h (List.not_mem_nil b)
      · rw [succs_fsAcyc_other h1 h2 h3] at h
        exact absurd h (List.not_mem_nil b)

lemma fsAcyc_acyclic : Acyclic fsAcyc ["d"] := by
  intro a b hab hba
  rcases edge_fsAcyc hab with ⟨rfl, rfl⟩ | ⟨rfl, rfl⟩
  · have h' : Relation.ReflTransGen (Edge fsAcyc ["d"]) "d/a" "r" := hba
    rcases Relation.ReflTransGen.cases_head h' with heq | ⟨c, hc, hcr⟩
    · exact absurd heq (by decide)
    · rcases edge_fsAcyc hc with ⟨ha, -⟩ | ⟨-, rfl⟩
      · exact absurd ha (by decide)
      · exact absurd (succs_nil_reaches fsAcyc ["d"] succs_fsAcyc_b hcr)
          (by decide)
  · exact absurd (succs_nil_reaches fsAcyc ["d"] succs_fsAcyc_b hba) (by decide)

/-- C1 (counterexample): the claim "system imports never appear as edges
of the import graph" is FALSE on the code: `update_import_graph` passes
every import of a parsed file to `resolve_import` without consulting
`is_system`, so a system include whose file exists in a registered search
directory becomes an edge. Here `main.c` contains only `#include
<stdio.h>` (no local import at all), yet its graph entry is
`["inc/stdio.h"]` and not `[]`. -/
theorem c1_system_import_edge_counterexample :
    importGraphEntry fsSysResolvable ["inc"] "main.c" = some ["inc/stdio.h"] ∧
    (extractImports (transUnit [sysInclude "stdio.h"])).filter
      (fun i => !i.is_system) = [] ∧
    (∀ i ∈ extractImports (transUnit [sysInclude "stdio.h"]),
      i.is_system = true) :=
  ⟨by decide, by decide, by decide⟩

/-- C1 (amended): an import-graph entry maps a file only to *resolved*
paths — every edge is the resolution of some import of the file (system
or local alike, so each edge target exists on disk), and an unresolved
include never contributes an edge; the claim's exclusion of system
includes does not hold (see the counterexample). -/
theorem c1_import_graph_edges_resolved (fs : FS) (incs : List String)
    (p : String) (es : List String)
    (h : importGraphEntry fs incs p = some es) :
    ∀ q ∈ es, fsExists fs q = true ∧
      ∃ pf imp, readAndParse fs p = .ok pf ∧ imp ∈ pf.imports ∧
        resolveImport fs incs p imp = some q :=
  importGraphEntry_elim fs incs h

/-- Witness for C1's amended theorem at the concrete fixture. -/
theorem c1_import_graph_edges_resolved_witness :
    importGraphEntry fsSysResolvable ["inc"] "main.c" = some ["inc/stdio.h"] ∧
    ∀ q ∈ ["inc/stdio.h"], fsExists fsSysResolvable q = true ∧
      ∃ pf imp, readAndParse fsSysResolvable "main.c" = .ok pf ∧
        imp ∈ pf.imports ∧
        resolveImport fsSysResolvable ["inc"] "main.c" imp = some q :=
  ⟨by decide,
   c1_import_graph_edges_resolved fsSysResolvable ["inc"] "main.c"
     ["inc/stdio.h"] (by decide)⟩

/-- C2 (counterexample): the claim that a `void`-only declaration yields
an *empty* parameter sequence is FALSE on the code: on the tree for
`void say_hello(void);`, `get_parameters` records the single
`parameter_declaration` of the list, producing `[("void", "")]` — exactly
what the repository's own `test_extract_functions` asserts. -/
theorem c2_void_param_counterexample :
    (extractFunctions voidParamTree).map Function.parameters =
      [[("void", "")]] ∧
    ¬ (extractFunctions voidParamTree).map Function.parameters = [[]] :=
  ⟨by decide, by decide⟩

/-- C2 (amended): a parameterless declaration (`void f();`) yields an
empty parameter sequence, while a `void`-only declaration
(`void say_hello(void);`) yields the single entry `("void", "")`. -/
theorem c2_parameter_extraction :
    (extractFunctions emptyParamTree).map Function.parameters = [[]] ∧
    (extractFunctions voidParamTree).map Function.parameters =
      [[("void", "")]] ∧
    (extractFunctions emptyParamTree).map Function.name = ["f"] ∧
    (extractFunctions voidParamTree).map Function.name = ["say_hello"] :=
  ⟨by decide, by decide, by decide, by decide⟩

/-- C3 (counterexample): the claim "no reachable file is omitted" is
FALSE on the code. `traverse_tree` pushes its cursor after
`goto_first_child`, so with three sibling `#include "..."` directives the
third is never visited: the root of this fixture textually holds the
directives `"a"`, `"b"`, `"c"` (see `directiveImports`), the file `d/c`
exists, parses, and is what `resolve_import` would return for `"c"`, yet
the extractor reports only the first two imports and the successful run
returns no summary for `d/c`. -/
theorem c3_skipped_include_counterexample :
    analyzeCFile fsThree ["d"] "r" = .ok threeSumms ∧
    fsLookup fsThree "r" = some (.source threeTree) ∧
    directiveImports threeTree =
      [⟨"a", false⟩, ⟨"b", false⟩, ⟨"c", false⟩] ∧
    extractImports threeTree = [⟨"a", false⟩, ⟨"b", false⟩] ∧
    resolveImport fsThree ["d"] "r" ⟨"c", false⟩ = some "d/c" ∧
    parsesOk fsThree "d/c" = true ∧
    pathsOf threeSumms = ["d/a", "d/b", "r"] ∧
    ¬ "d/c" ∈ pathsOf threeSumms :=
  ⟨by decide, rfl, by decide, by decide, by decide, by decide,
   by decide, by decide⟩

/-- C3 (amended): on any successful run, the summary paths are
duplicate-free and are exactly the files reachable from the root along
the resolved local imports the extractor actually reports (`succs`),
the root included — one summary each, none twice. Because
`traverse_tree` can skip include directives after the second sibling,
this reported set can omit directives present in the source, so files
reachable only through them are omitted (see the counterexample);
acyclicity is not needed for this characterization. -/
theorem c3_summaries_iff_reachable (fs : FS) (incs : List String)
    (root : String) (summs : List HeaderSummary)
    (h : analyzeCFile fs incs root = .ok summs) :
    (pathsOf summs).Nodup ∧
      ∀ q, q ∈ pathsOf summs ↔ Reaches fs incs root q :=
  analyzeCFile_paths fs incs h

/-- Witness for C3 on the acyclic fixture: the run succeeds and returns
one summary for each of the three reachable files. -/
theorem c3_summaries_iff_reachable_witness :
    analyzeCFile fsAcyc ["d"] "r" = .ok acycSumms ∧
    pathsOf acycSumms = ["d/b", "d/a", "r"] ∧
    (pathsOf acycSumms).Nodup ∧
    (∀ q, q ∈ pathsOf acycSumms ↔ Reaches fsAcyc ["d"] "r" q) :=
  ⟨by decide, by decide,
   (c3_summaries_iff_reachable fsAcyc ["d"] "r" acycSumms (by decide)).1,
   (c3_summaries_iff_reachable fsAcyc ["d"] "r" acycSumms (by decide)).2⟩

/-- C4: for every filesystem and include graph — cyclic ones included —
the walk terminates (the fuel bound `analyzeCFile` uses is never
exhausted); on success no path is summarized twice; and a file already in
the run's visited set returns immediately with the state untouched (no
re-parse, no duplicate summary). -/
theorem c4_cycle_safe_termination :
    (∀ (fs : FS) (incs : List String) (root : String),
      analyzeCFileFuel fs incs (fs.length + 1) root ≠ none) ∧
    (∀ (fs : FS) (incs : List String) (root : String)
        (summs : List HeaderSummary),
      analyzeCFile fs incs root = .ok summs → (pathsOf summs).Nodup) ∧
    (∀ (fs : FS) (incs : List String) (fuel : Nat) (p : String)
        (V : Finset String) (S : List HeaderSummary), p ∈ V →
      analyzeFileRec fs incs (fuel + 1) p (V, S) = some (.ok (V, S))) := by
  refine ⟨?_, ?_, ?_⟩
  · intro fs incs root
    exact analyzeCFileFuel_ne_none fs incs root
  · intro fs incs root summs h
    exact (analyzeCFile_paths fs incs h).1
  · intro fs incs fuel p V S hp
    simp only [analyzeFileRec]
    rw [if_pos hp]

/-- Witness for C4 on the two-cycle fixture (`d/a` and `d/b` include
each other): the run terminates, each file yields exactly one summary,
and a visited file is returned from immediately. -/
theorem c4_cycle_safe_termination_witness :
    analyzeCFileFuel fsCyc ["d"] (fsCyc.length + 1) "d/a" ≠ none ∧
    analyzeCFile fsCyc ["d"] "d/a" = .ok cycSumms ∧
    pathsOf cycSumms = ["d/b", "d/a"] ∧
    (pathsOf cycSumms).Nodup ∧
    analyzeFileRec fsCyc ["d"] 3 "d/a" ({"d/a"}, []) =
      some (.ok ({"d/a"}, [])) :=
  ⟨c4_cycle_safe_termination.1 fsCyc ["d"] "d/a",
   by decide, by decide,
   c4_cycle_safe_termination.2.1 fsCyc ["d"] "d/a" cycSumms (by decide),
   c4_cycle_safe_termination.2.2 fsCyc ["d"] 2 "d/a" {"d/a"} [] (by decide)⟩

/-- C5: the resolver returns `dir ++ "/" ++ import.path` for the first
registered directory (in registration order) whose candidate exists on
disk — every earlier directory's candidate does not exist — and returns
`none` exactly when no registered directory contains the file. -/
theorem c5_resolver_first_match (fs : FS) (dirs : List String)
    (cf : String) (imp : Import) :
    (∀ q, resolveImport fs dirs cf imp = some q ↔
      ∃ pre dir suf, dirs = pre ++ dir :: suf ∧
        q = dir ++ "/" ++ imp.path ∧ fsExists fs q = true ∧
        ∀ d ∈ pre, fsExists fs (d ++ "/" ++ imp.path) = false) ∧
    (resolveImport fs dirs cf imp = none ↔
      ∀ d ∈ dirs, fsExists fs (d ++ "/" ++ imp.path) = false) :=
  ⟨fun q => resolveImport_some_iff fs cf imp dirs q,
   resolveImport_none_iff fs cf imp dirs⟩

/-- Witness for C5: with `a.h` present in both `d1` and `d2`, the first
registered directory wins, and resolution fails when no registered
directory has the file. -/
theorem c5_resolver_first_match_witness :
    resolveImport fsTwoDirs ["d1", "d2"] "main.c" ⟨"a.h", false⟩ =
      some "d1/a.h" ∧
    resolveImport fsTwoDirs ["d2", "d1"] "main.c" ⟨"a.h", false⟩ =
      some "d2/a.h" ∧
    resolveImport fsTwoDirs ["d0"] "main.c" ⟨"a.h", false⟩ = none :=
  ⟨((c5_resolver_first_match fsTwoDirs ["d1", "d2"] "main.c"
      ⟨"a.h", false⟩).1 "d1/a.h").mpr
      ⟨[], "d1", ["d2"], rfl, rfl, by decide, by simp⟩,
   ((c5_resolver_first_match fsTwoDirs ["d2", "d1"] "main.c"
      ⟨"a.h", false⟩).1 "d2/a.h").mpr
      ⟨[], "d2", ["d1"], rfl, rfl, by decide, by simp⟩,
   (c5_resolver_first_match fsTwoDirs ["d0"] "main.c" ⟨"a.h", false⟩).2.mpr
      (by decide)⟩

/-- C6: if any file reachable along the traversal cannot be read or is
rejected by the parser, the entire run fails with an error, and the
caller receives zero summaries (`Except.error` carries none), even when
the root itself parsed successfully. -/
theorem c6_bad_file_aborts_run (fs : FS) (incs : List String)
    (root r : String) (hreach : Reaches fs incs root r)
    (hbad : parsesOk fs r = false) :
    ∃ e, analyzeCFile fs incs root = .error e := by
  cases h : analyzeCFile fs incs root with
  | error e => exact ⟨e, rfl⟩
  | ok summs =>
      have hok := analyzeCFile_ok_parses fs incs h r hreach
      rw [hbad] at hok
      exact Bool.noConfusion hok

/-- Witness for C6: the root parses fine, its dependency `d/a` is
unreadable, and the run aborts with the corresponding `IoError`, yielding
zero summaries. -/
theorem c6_bad_file_aborts_run_witness :
    parsesOk fsBadDep "r" = true ∧
    parsesOk fsBadDep "d/a" = false ∧
    (∃ e, analyzeCFile fsBadDep ["d"] "r" = .error e) ∧
    analyzeCFile fsBadDep ["d"] "r" = .error (.IoError "d/a") := by
  have hE : "d/a" ∈ succs fsBadDep ["d"] "r" := by decide
  exact ⟨by decide, by decide,
    c6_bad_file_aborts_run fsBadDep ["d"] "r" "d/a"
      (Relation.ReflTransGen.single hE) (by decide),
    by decide⟩

/-- C7: when the traversed local-include graph is acyclic, the returned
summary list is post-ordered: every file's summary is appended only after
the summaries of all of its resolved local dependencies. -/
theorem c7_postorder (fs : FS) (incs : List String) (root : String)
    (summs : List HeaderSummary) (hac : Acyclic fs incs)
    (h : analyzeCFile fs incs root = .ok summs) :
    PostOrdered fs incs [] summs :=
  analyzeCFile_postordered fs incs hac h

/-- Witness for C7 on the acyclic chain `r → d/a → d/b`: the output is
leaves-first. -/
theorem c7_postorder_witness :
    Acyclic fsAcyc ["d"] ∧
    analyzeCFile fsAcyc ["d"] "r" = .ok acycSumms ∧
    pathsOf acycSumms = ["d/b", "d/a", "r"] ∧
    PostOrdered fsAcyc ["d"] [] acycSumms :=
  ⟨fsAcyc_acyclic, by decide, by decide,
   c7_postorder fsAcyc ["d"] "r" acycSumms fsAcyc_acyclic (by decide)⟩

/-- C8: the walker never traverses a system import: every summarized file
is reachable from the root along edges that each arise from an import
with `is_system = false` (only non-system imports are offered to
resolution for traversal). -/
theorem c8_system_imports_never_traversed (fs : FS) (incs : List String)
    (root : String) (summs : List HeaderSummary)
    (h : analyzeCFile fs incs root = .ok summs) :
    (∀ q ∈ pathsOf summs, Reaches fs incs root q) ∧
    (∀ a b, Edge fs incs a b →
      ∃ pf imp, readAndParse fs a = .ok pf ∧ imp ∈ pf.imports ∧
        imp.is_system = false ∧ resolveImport fs incs a imp = some b) := by
  refine ⟨?_, ?_⟩
  · intro q hq
    exact ((analyzeCFile_paths fs incs h).2 q).mp hq
  · intro a b hab
    exact edge_elim fs incs hab

/-- Witness for C8: although `stdio.h` exists in the registered search
directory `d`, the system include `<stdio.h>` is not traversed — the run
summarizes only the root. -/
theorem c8_system_imports_never_traversed_witness :
    analyzeCFile fsSysFile ["d"] "r" = .ok sysSumms ∧
    pathsOf sysSumms = ["r"] ∧
    fsExists fsSysFile "d/stdio.h" = true ∧
    (∀ q ∈ pathsOf sysSumms, Reaches fsSysFile ["d"] "r" q) :=
  ⟨by decide, by decide, by decide,
   (c8_system_imports_never_traversed fsSysFile ["d"] "r" sysSumms
     (by decide)).1⟩

/-- C9 (counterexample): the claim that the search-directory list
*always* includes the root file's parent directory is FALSE on the code:
`extract_import_summaries` appends the parent only inside
`if let Some(parent_dir) = path.parent()`, and for the root path `"/"`
(or the empty path) `Path::parent` returns `None`, so only the five
defaults are registered. -/
theorem c9_no_parent_counterexample :
    pathParent "/" = none ∧ searchDirs "/" = defaultIncludePaths ∧
    pathParent "" = none ∧ searchDirs "" = defaultIncludePaths :=
  ⟨by decide, by rfl, by decide, by rfl⟩

/-- C9 (amended): whenever the root file path has a parent directory,
that parent is appended after all five caller-side default search
directories; for parentless paths only the defaults are registered. -/
theorem c9_parent_appended_after_defaults (p d : String)
    (h : pathParent p = some d) :
    searchDirs p = defaultIncludePaths ++ [d] := by
  unfold searchDirs
  rw [h]

/-- Witness for C9's amended theorem at a typical relative path. -/
theorem c9_parent_appended_after_defaults_witness :
    pathParent "src/main.c" = some "src" ∧
    searchDirs "src/main.c" = defaultIncludePaths ++ ["src"] :=
  ⟨by decide,
   c9_parent_appended_after_defaults "src/main.c" "src" (by decide)⟩

/-- C10: include resolution is independent of the importing file — the
`current_file` argument of `resolve_import` is dead, so any two importer
paths give identical results for every import and directory list. -/
theorem c10_resolution_ignores_current_file (fs : FS) (dirs : List String)
    (cf cf' : String) (imp : Import) :
    resolveImport fs dirs cf imp = resolveImport fs dirs cf' imp :=
  resolveImport_ignores_current fs cf cf' imp dirs

end CPreamble
